import Mathlib

/-!
Verification of the svapp audio playback core against its specification.

The development shallowly embeds the parts of the source that the claims
concern: the `IntegerTimeStretcher` phase-vocoder state machine
(src/audioio/AudioCallbackPlaySource.h, lines 441-644, which inlines
IntegerTimeStretcher.cpp), the `AudioGenerator::NoteOff` ordered set
(lines 378-393), and the ring-buffer accessors of
`AudioCallbackPlaySource` (lines 221-236).

Samples are embedded as rationals: the claims under study concern counts,
buffer structure and the integer normalisation constant, none of which
depend on floating-point rounding.  The spectral kernel of `processBlock`
(analysis window, fftshift, FFT, phase multiplication, inverse FFT,
unshift, synthesis window: lines 595-633) is transcendental, so the loops
that use it are parameterised by an abstract kernel `pb`; the integer
normalisation (lines 635-639) and the overlap-add (lines 641-643) are
embedded concretely.
-/

namespace Svapp

/-- Modelled from the spec: `RingBuffer<float>` lives in base/RingBuffer.h,
which is not under src/.  Spec 4.1: an SPSC queue over storage of capacity
C with one slot reserved, readSpace = W - R and writeSpace = C - 1 - (W - R);
`RingBuffer(n)` provides room to write n samples (storage C = n + 1).  The
model records the usable size n and the queued samples in FIFO order. -/
structure RingBuffer where
  size : ℕ
  data : List ℚ
deriving DecidableEq

/-- Modelled from the spec: readSpace is the number of queued samples. -/
def RingBuffer.getReadSpace (rb : RingBuffer) : ℕ := rb.data.length

/-- Modelled from the spec: writeSpace is the remaining room. -/
def RingBuffer.getWriteSpace (rb : RingBuffer) : ℕ := rb.size - rb.data.length

/-- Modelled from the spec: write appends at most the available write space. -/
def RingBuffer.write (rb : RingBuffer) (src : List ℚ) : RingBuffer :=
  { rb with data := rb.data ++ src.take rb.getWriteSpace }

/-- Modelled from the spec: peek returns data without advancing the read pointer. -/
def RingBuffer.peek (rb : RingBuffer) (n : ℕ) : List ℚ := rb.data.take n

/-- Modelled from the spec: skip advances the read pointer by n. -/
def RingBuffer.skip (rb : RingBuffer) (n : ℕ) : RingBuffer :=
  { rb with data := rb.data.drop n }

/-- Modelled from the spec: read returns and consumes at most n samples. -/
def RingBuffer.read (rb : RingBuffer) (n : ℕ) : List ℚ × RingBuffer :=
  (rb.data.take n, rb.skip n)

/-- State of `IntegerTimeStretcher` (src lines 441-466): the integer ratio,
the analysis hop m_n1, the synthesis hop m_n2, the window length m_wlen,
the input and output ring buffers, and the overlap-add accumulator
m_mashbuf.  The window vector and the FFT plans belong to the abstracted
spectral kernel. -/
structure IntegerTimeStretcher where
  ratio : ℕ
  n1 : ℕ
  n2 : ℕ
  wlen : ℕ
  inbuf : RingBuffer
  outbuf : RingBuffer
  mashbuf : List ℚ
deriving DecidableEq

/-- Constructor of `IntegerTimeStretcher` (src lines 441-466):
m_n1 = inputIncrement, m_n2 = m_n1 * ratio, m_wlen = max(windowSize, m_n2 * 2),
m_inbuf(m_wlen), m_outbuf(maxProcessInputBlockSize * ratio), and m_mashbuf
of m_wlen entries all set to 0.0. -/
def IntegerTimeStretcher.construct
    (ratio maxProcessInputBlockSize inputIncrement windowSize : ℕ) :
    IntegerTimeStretcher :=
  let n1 := inputIncrement
  let n2 := n1 * ratio
  let wlen := max windowSize (n2 * 2)
  { ratio := ratio
    n1 := n1
    n2 := n2
    wlen := wlen
    inbuf := { size := wlen, data := [] }
    outbuf := { size := maxProcessInputBlockSize * ratio, data := [] }
    mashbuf := List.replicate wlen 0 }

/-- `getProcessingLatency` (src lines 483-487) returns
getWindowSize() - getInputIncrement().  Modelled from the spec for the two
accessors, which are declared in IntegerTimeStretcher.h (not under src/):
getWindowSize returns the window length m_wlen and getInputIncrement
returns the analysis hop m_n1, the constructor's inputIncrement argument
(src lines 443 and 447; spec glossary: the analysis step size is n1). -/
def IntegerTimeStretcher.getProcessingLatency (st : IntegerTimeStretcher) : ℕ :=
  st.wlen - st.n1

/-- Normalisation divisor of `processBlock` (src lines 635-636):
`int div = m_wlen / m_n2; if (div > 1) div /= 2;` in integer arithmetic. -/
def mashDiv (wlen n2 : ℕ) : ℕ :=
  let d := wlen / n2
  if 1 < d then d / 2 else d

/-- Scaling loop of `processBlock` (src lines 637-639): every one of the
m_wlen samples is divided by the integer div. -/
def scaleBlock (wlen n2 : ℕ) (buf : List ℚ) : List ℚ :=
  buf.map (fun x => x / (mashDiv wlen n2 : ℚ))

/-- The overlap-add of `processBlock` (src lines 641-643) applied to the
current window: the abstract spectral kernel `pb` (src lines 595-633)
transforms the peeked window, the result is scaled (src lines 635-639) and
added pointwise into the accumulator m_mashbuf. -/
def stretchMash (pb : List ℚ → List ℚ) (st : IntegerTimeStretcher) : List ℚ :=
  List.zipWith (fun a b => a + b) st.mashbuf
    (scaleBlock st.wlen st.n2 (pb (st.inbuf.peek st.wlen)))

/-- Shift of the accumulator (src lines 548-553): for i < m_wlen - m_n2 the
in-place loop sets m[i] = m[i + m_n2] (reads stay ahead of writes, so the
original values are read), then the last m_n2 entries are set to 0.0. -/
def mashShift (wlen n2 : ℕ) (m : List ℚ) : List ℚ :=
  List.ofFn (fun i : Fin wlen =>
    if (i : ℕ) < wlen - n2 then m.getD ((i : ℕ) + n2) 0 else 0)

/-- Guard of the inner processing loop (src lines 529-530):
m_inbuf.getReadSpace() >= m_wlen and m_outbuf.getWriteSpace() >= m_n2. -/
def stretchGuard (st : IntegerTimeStretcher) : Prop :=
  st.wlen ≤ st.inbuf.getReadSpace ∧ st.n2 ≤ st.outbuf.getWriteSpace

instance (st : IntegerTimeStretcher) : Decidable (stretchGuard st) :=
  inferInstanceAs (Decidable (_ ∧ _))

/-- One iteration of the inner processing loop (src lines 537-553): peek
m_wlen samples, run `processBlock` into m_mashbuf, skip m_n1 on the input
ring, write the first m_n2 samples of m_mashbuf to the output ring, then
shift m_mashbuf left by m_n2 and zero its tail. -/
def stretchIter (pb : List ℚ → List ℚ) (st : IntegerTimeStretcher) :
    IntegerTimeStretcher :=
  let mash := stretchMash pb st
  { st with
    inbuf := st.inbuf.skip st.n1
    outbuf := st.outbuf.write (mash.take st.n2)
    mashbuf := mashShift st.wlen st.n2 mash }

/-- The inner processing loop (src lines 529-554), with explicit fuel: the
source loop terminates whenever m_n1 >= 1 and m_wlen >= 1, in which case
any fuel above the input ring's read space is enough (proved below). -/
def innerLoop (pb : List ℚ → List ℚ) : ℕ → IntegerTimeStretcher → IntegerTimeStretcher
  | 0, st => st
  | f + 1, st =>
    if stretchGuard st then innerLoop pb f (stretchIter pb st) else st

/-- The inner loop run with adequate fuel for a terminating configuration. -/
def runInner (pb : List ℚ → List ℚ) (st : IntegerTimeStretcher) :
    IntegerTimeStretcher :=
  innerLoop pb (st.inbuf.getReadSpace + 1) st

/-- The outer loop of `process` (src lines 512-562): while input remains,
write min(m_inbuf.getWriteSpace(), samples - consumed) input samples to the
input ring (breaking out when that is zero, discarding the rest), then run
the inner processing loop. -/
def outerLoop (pb : List ℚ → List ℚ) (st : IntegerTimeStretcher)
    (rest : List ℚ) : IntegerTimeStretcher :=
  if rest = [] then st
  else
    let writable := min st.inbuf.getWriteSpace rest.length
    if h : writable = 0 then st
    else
      outerLoop pb
        (runInner pb { st with inbuf := st.inbuf.write (rest.take writable) })
        (rest.drop writable)
termination_by rest.length
decreasing_by
  simp only [List.length_drop]
  have hp : 0 < min st.inbuf.getWriteSpace rest.length := Nat.pos_of_ne_zero h
  have hr : 0 < rest.length := Nat.lt_of_lt_of_le hp (Nat.min_le_right _ _)
  omega

/-- The drain step of `process` (src lines 564-576): emit samples * m_ratio
output samples; when the output ring holds fewer, zero-fill the head and
append everything it holds. -/
def drain (st : IntegerTimeStretcher) (n : ℕ) : List ℚ × IntegerTimeStretcher :=
  if st.outbuf.getReadSpace < n then
    (List.replicate (n - st.outbuf.getReadSpace) 0 ++
        (st.outbuf.read st.outbuf.getReadSpace).1,
      { st with outbuf := (st.outbuf.read st.outbuf.getReadSpace).2 })
  else
    ((st.outbuf.read n).1, { st with outbuf := (st.outbuf.read n).2 })

/-- `IntegerTimeStretcher::process` (src lines 489-581): run the outer loop
on the input block, then drain samples * m_ratio output samples. -/
def process (pb : List ℚ → List ℚ) (st : IntegerTimeStretcher)
    (input : List ℚ) : List ℚ × IntegerTimeStretcher :=
  let st1 := outerLoop pb st input
  (((drain st1 (input.length * st.ratio)).1),
    (drain st1 (input.length * st.ratio)).2)

/-- `AudioCallbackPlaySource::getWriteRingBuffer` (src lines 221-227): a
null m_writeBuffers pointer is `none`; an index not below the vector's size
yields null, otherwise the element at c. -/
def getWriteRingBuffer (writeBuffers : Option (List RingBuffer)) (c : ℕ) :
    Option RingBuffer :=
  match writeBuffers with
  | some v => if h : c < v.length then some (v.get ⟨c, h⟩) else none
  | none => none

/-- `AudioCallbackPlaySource::getReadRingBuffer` (src lines 229-236): the
member m_readBuffers is snapshotted into a local, then the same check. -/
def getReadRingBuffer (readBuffers : Option (List RingBuffer)) (c : ℕ) :
    Option RingBuffer :=
  let rb := readBuffers
  match rb with
  | some v => if h : c < v.length then some (v.get ⟨c, h⟩) else none
  | none => none

/-- `AudioGenerator::NoteOff` (src lines 378-388). -/
structure NoteOff where
  pitch : ℤ
  frame : ℕ
deriving DecidableEq

/-- `NoteOff::Comparator` (src lines 383-387): n1 sorts before n2 exactly
when n1.frame < n2.frame. -/
def NoteOff.comparator (a b : NoteOff) : Bool := decide (a.frame < b.frame)

/-- Modelled from the spec: `std::set<NoteOff, NoteOff::Comparator>` insert
(the C++ standard library container, not repository code): elements are
kept in comparator order, and an element equivalent to an existing one
(neither compares before the other; here, equal frame) is not inserted. -/
def noteOffInsert : List NoteOff → NoteOff → List NoteOff
  | [], n => [n]
  | x :: xs, n =>
    if NoteOff.comparator n x then n :: x :: xs
    else if NoteOff.comparator x n then x :: noteOffInsert xs n
    else x :: xs

/-! Helper lemmas: the loop bodies do not touch the configuration fields. -/

@[simp]
theorem stretchIter_ratio (pb : List ℚ → List ℚ) (st : IntegerTimeStretcher) :
    (stretchIter pb st).ratio = st.ratio := rfl

@[simp]
theorem stretchIter_n1 (pb : List ℚ → List ℚ) (st : IntegerTimeStretcher) :
    (stretchIter pb st).n1 = st.n1 := rfl

@[simp]
theorem stretchIter_n2 (pb : List ℚ → List ℚ) (st : IntegerTimeStretcher) :
    (stretchIter pb st).n2 = st.n2 := rfl

@[simp]
theorem stretchIter_wlen (pb : List ℚ → List ℚ) (st : IntegerTimeStretcher) :
    (stretchIter pb st).wlen = st.wlen := rfl

@[simp]
theorem innerLoop_ratio (pb : List ℚ → List ℚ) (f : ℕ) (st : IntegerTimeStretcher) :
    (innerLoop pb f st).ratio = st.ratio := by
  induction f generalizing st with
  | zero => rfl
  | succ f ih =>
    by_cases h : stretchGuard st
    · simp [innerLoop, h, ih]
    · simp [innerLoop, h]

@[simp]
theorem runInner_ratio (pb : List ℚ → List ℚ) (st : IntegerTimeStretcher) :
    (runInner pb st).ratio = st.ratio := innerLoop_ratio pb _ st

@[simp]
theorem outerLoop_ratio (pb : List ℚ → List ℚ) (st : IntegerTimeStretcher)
    (rest : List ℚ) : (outerLoop pb st rest).ratio = st.ratio := by
  generalize hk : rest.length = k
  induction k using Nat.strong_induction_on generalizing st rest with
  | _ k ih =>
    rw [outerLoop]
    split
    · rfl
    next hne =>
      dsimp only
      split
      · rfl
      next hw =>
        have hpos : 0 < min st.inbuf.getWriteSpace rest.length :=
          Nat.pos_of_ne_zero hw
        have hrl : 0 < rest.length := by
          cases rest with
          | nil => exact absurd rfl hne
          | cons a l => exact Nat.succ_pos _
        rw [ih ((rest.drop (min st.inbuf.getWriteSpace rest.length)).length)
          (by simp [List.length_drop]; omega) _ _ rfl]
        simp

@[simp]
theorem drain_snd_ratio (st : IntegerTimeStretcher) (n : ℕ) :
    ((drain st n).2).ratio = st.ratio := by
  unfold drain
  split <;> rfl

@[simp]
theorem process_snd_ratio (pb : List ℚ → List ℚ) (st : IntegerTimeStretcher)
    (input : List ℚ) : ((process pb st input).2).ratio = st.ratio := by
  unfold process
  simp

theorem foldl_process_ratio (pb : List ℚ → List ℚ) (prev : List (List ℚ))
    (s : IntegerTimeStretcher) :
    ((prev.foldl (fun s i => (process pb s i).2) s)).ratio = s.ratio := by
  induction prev generalizing s with
  | nil => rfl
  | cons a l ih => simp [List.foldl_cons, ih]

/-! Helper lemmas on the drain step. -/

theorem drain_fst_length (st : IntegerTimeStretcher) (n : ℕ) :
    ((drain st n).1).length = n := by
  unfold drain
  split
  next h =>
    simp only [RingBuffer.read, RingBuffer.getReadSpace, List.take_length,
      List.length_append, List.length_replicate] at *
    omega
  next h =>
    simp only [RingBuffer.read, RingBuffer.getReadSpace, List.length_take] at *
    omega

theorem drain_fst_insufficient (st : IntegerTimeStretcher) (n : ℕ)
    (h : st.outbuf.getReadSpace < n) :
    (drain st n).1 =
      List.replicate (n - st.outbuf.getReadSpace) 0 ++ st.outbuf.data := by
  unfold drain
  rw [if_pos h]
  simp [RingBuffer.read, RingBuffer.getReadSpace]

theorem drain_fst_sufficient (st : IntegerTimeStretcher) (n : ℕ)
    (h : n ≤ st.outbuf.getReadSpace) :
    (drain st n).1 = st.outbuf.data.take n := by
  unfold drain
  rw [if_neg (not_lt.mpr h)]
  rfl

/-- C1: the claim states that getProcessingLatency() returns W - n2.  The
code (src 483-487) returns getWindowSize() - getInputIncrement() = W - n1,
contradicting both the spec and the code's own comment (src line 504: the
processing latency is then m_wlen - m_n2).  At ratio 2, max block 4, input
increment 1, window size 4 we get W = 4, n1 = 1, n2 = 2: the code returns
3 while the claimed value is 2. -/
theorem getProcessingLatency_returns_wlen_sub_n1 :
    (IntegerTimeStretcher.construct 2 4 1 4).getProcessingLatency = 3 ∧
    (IntegerTimeStretcher.construct 2 4 1 4).wlen -
        (IntegerTimeStretcher.construct 2 4 1 4).n2 = 2 ∧
    (3 : ℕ) ≠ 2 := by
  refine ⟨rfl, rfl, by decide⟩

/-- C4: the constructor, given ratio R, max input block B, input increment
n1, requested window size and window type, establishes n2 = R * n1, the
effective window length W = max(requested, 2 * n2) (hence at least
2 * (R * n1)), an input ring of capacity W, an output ring of capacity
B * R, and a mashbuf of W zero entries. -/
theorem construct_establishes_state (R B n1 ws : ℕ) :
    (IntegerTimeStretcher.construct R B n1 ws).n2 = R * n1 ∧
    (IntegerTimeStretcher.construct R B n1 ws).wlen = max ws (2 * (R * n1)) ∧
    2 * (R * n1) ≤ (IntegerTimeStretcher.construct R B n1 ws).wlen ∧
    (IntegerTimeStretcher.construct R B n1 ws).inbuf.size =
      (IntegerTimeStretcher.construct R B n1 ws).wlen ∧
    (IntegerTimeStretcher.construct R B n1 ws).inbuf.data = [] ∧
    (IntegerTimeStretcher.construct R B n1 ws).outbuf.size = B * R ∧
    (IntegerTimeStretcher.construct R B n1 ws).outbuf.data = [] ∧
    (IntegerTimeStretcher.construct R B n1 ws).mashbuf =
      List.replicate (IntegerTimeStretcher.construct R B n1 ws).wlen 0 := by
  refine ⟨?_, ?_, ?_, rfl, rfl, rfl, rfl, rfl⟩
  · show n1 * R = R * n1
    ring
  · show max ws (n1 * R * 2) = max ws (2 * (R * n1))
    ring_nf
  · show 2 * (R * n1) ≤ max ws (n1 * R * 2)
    have : n1 * R * 2 = 2 * (R * n1) := by ring
    rw [this]
    exact le_max_right _ _

/-- C5: inside processBlock, after the inverse FFT, the division by W and
the synthesis window, every sample is scaled by 1 / (W / n2 / 2) before the
overlap-add into mashbuf: in the code's integer arithmetic the divisor is
div = W / n2 (integer division), halved when div > 1, and under the
constructor invariant W >= 2 * n2 the halved branch is always taken. -/
theorem processBlock_scaling_factor (st : IntegerTimeStretcher)
    (pb : List ℚ → List ℚ) (hn2 : 1 ≤ st.n2) (hw : 2 * st.n2 ≤ st.wlen) :
    1 < st.wlen / st.n2 ∧
    mashDiv st.wlen st.n2 = st.wlen / st.n2 / 2 ∧
    1 ≤ st.wlen / st.n2 / 2 ∧
    stretchMash pb st =
      List.zipWith (fun a b => a + b) st.mashbuf
        ((pb (st.inbuf.peek st.wlen)).map
          (fun x => x * (1 / ((st.wlen / st.n2 / 2 : ℕ) : ℚ)))) := by
  have hpos : 0 < st.n2 := hn2
  have h2 : 2 ≤ st.wlen / st.n2 := by
    rw [Nat.le_div_iff_mul_le hpos]
    omega
  have h1 : 1 < st.wlen / st.n2 := by omega
  have hdiv : mashDiv st.wlen st.n2 = st.wlen / st.n2 / 2 := by
    unfold mashDiv
    simp [h1]
  refine ⟨h1, hdiv, by omega, ?_⟩
  unfold stretchMash scaleBlock
  rw [hdiv]
  simp only [div_eq_mul_inv, one_div, one_mul]

/-- Witness for C5 at ratio 2, max block 4, input increment 1, window size
4: n2 = 2, W = 4, and the divisor W / n2 / 2 is 1. -/
theorem processBlock_scaling_factor_witness :
    (1 ≤ (IntegerTimeStretcher.construct 2 4 1 4).n2 ∧
      2 * (IntegerTimeStretcher.construct 2 4 1 4).n2 ≤
        (IntegerTimeStretcher.construct 2 4 1 4).wlen) ∧
    (1 < (IntegerTimeStretcher.construct 2 4 1 4).wlen /
        (IntegerTimeStretcher.construct 2 4 1 4).n2 ∧
    mashDiv (IntegerTimeStretcher.construct 2 4 1 4).wlen
        (IntegerTimeStretcher.construct 2 4 1 4).n2 =
      (IntegerTimeStretcher.construct 2 4 1 4).wlen /
        (IntegerTimeStretcher.construct 2 4 1 4).n2 / 2 ∧
    1 ≤ (IntegerTimeStretcher.construct 2 4 1 4).wlen /
        (IntegerTimeStretcher.construct 2 4 1 4).n2 / 2 ∧
    stretchMash (fun l => l) (IntegerTimeStretcher.construct 2 4 1 4) =
      List.zipWith (fun a b => a + b)
        (IntegerTimeStretcher.construct 2 4 1 4).mashbuf
        (((fun l : List ℚ => l)
            ((IntegerTimeStretcher.construct 2 4 1 4).inbuf.peek
              (IntegerTimeStretcher.construct 2 4 1 4).wlen)).map
          (fun x => x *
            (1 / (((IntegerTimeStretcher.construct 2 4 1 4).wlen /
                (IntegerTimeStretcher.construct 2 4 1 4).n2 / 2 : ℕ) : ℚ))))) :=
  ⟨⟨by decide, by decide⟩,
    processBlock_scaling_factor (IntegerTimeStretcher.construct 2 4 1 4)
      (fun l => l) (by decide) (by decide)⟩

/-- C8: getWriteRingBuffer and getReadRingBuffer are total: they agree with
the total safe lookup on Option (List _), return none exactly when the
vector pointer is null or the channel index is not below the vector's size,
and hence never index the vector out of range. -/
theorem ringBuffer_accessors_total (bufs : Option (List RingBuffer)) (c : ℕ) :
    getWriteRingBuffer bufs c = getReadRingBuffer bufs c ∧
    getWriteRingBuffer bufs c = bufs.bind (fun v => v[c]?) ∧
    ((getWriteRingBuffer bufs c = none) ↔
      bufs = none ∨ ∃ v, bufs = some v ∧ v.length ≤ c) ∧
    ((getReadRingBuffer bufs c = none) ↔
      bufs = none ∨ ∃ v, bufs = some v ∧ v.length ≤ c) := by
  cases bufs with
  | none => simp [getWriteRingBuffer, getReadRingBuffer]
  | some v =>
    by_cases h : c < v.length
    · refine ⟨rfl, ?_, ?_, ?_⟩
      · simp [getWriteRingBuffer, h, List.getElem?_eq_getElem h]
      · simp [getWriteRingBuffer, h]
      · simp [getReadRingBuffer, h]
    · refine ⟨rfl, ?_, ?_, ?_⟩
      · simp [getWriteRingBuffer, h, List.getElem?_eq_none (Nat.le_of_not_lt h)]
      · simp [getWriteRingBuffer, h]
        omega
      · simp [getReadRingBuffer, h]
        omega

/-! Helper lemmas for the inner-loop iteration. -/

theorem stretchMash_length (pb : List ℚ → List ℚ) (st : IntegerTimeStretcher)
    (hm : st.mashbuf.length = st.wlen)
    (hk : (pb (st.inbuf.peek st.wlen)).length = st.wlen) :
    (stretchMash pb st).length = st.wlen := by
  simp [stretchMash, scaleBlock, hm, hk]

theorem mashShift_eq (wlen n2 : ℕ) (m : List ℚ) (hm : m.length = wlen)
    (h : n2 ≤ wlen) :
    mashShift wlen n2 m = m.drop n2 ++ List.replicate n2 0 := by
  apply List.ext_getElem
  · simp [mashShift, hm]
    omega
  · intro i h1 h2
    simp only [mashShift, List.getElem_ofFn]
    by_cases hi : i < wlen - n2
    · rw [if_pos hi]
      rw [List.getElem_append_left (by simp [hm]; omega)]
      rw [List.getElem_drop]
      have hix : i + n2 < m.length := by omega
      rw [List.getD_eq_getElem?_getD, List.getElem?_eq_getElem hix]
      exact getElem_congr (Nat.add_comm i n2)
    · rw [if_neg hi]
      rw [List.getElem_append_right (by simp [hm]; omega)]
      simp

/-- C3: one processing iteration of `process`'s inner loop runs exactly
when the input ring holds at least W readable frames and the output ring
has at least n2 writable frames; each iteration advances the input ring
read pointer by exactly n1 frames, writes exactly the first n2 frames of
the freshly overlap-added mashbuf to the output ring, shifts mashbuf left
by n2 and zeroes its last n2 entries. -/
theorem stretch_iteration_effects
    (pb : List ℚ → List ℚ) (st : IntegerTimeStretcher) (fuel : ℕ)
    (hm : st.mashbuf.length = st.wlen)
    (hk : (pb (st.inbuf.peek st.wlen)).length = st.wlen)
    (hn2 : st.n2 ≤ st.wlen) (hn1w : st.n1 ≤ st.wlen) :
    (¬ stretchGuard st → innerLoop pb fuel st = st) ∧
    (stretchGuard st →
      innerLoop pb (fuel + 1) st = innerLoop pb fuel (stretchIter pb st)) ∧
    (stretchGuard st →
      (stretchIter pb st).inbuf.data = st.inbuf.data.drop st.n1 ∧
      (stretchIter pb st).inbuf.getReadSpace + st.n1 = st.inbuf.getReadSpace ∧
      (stretchIter pb st).outbuf.data =
        st.outbuf.data ++ (stretchMash pb st).take st.n2 ∧
      (stretchIter pb st).mashbuf =
        (stretchMash pb st).drop st.n2 ++ List.replicate st.n2 (0 : ℚ)) := by
  refine ⟨?_, ?_, ?_⟩
  · intro h
    cases fuel with
    | zero => rfl
    | succ f => simp [innerLoop, h]
  · intro h
    simp [innerLoop, h]
  · intro h
    obtain ⟨hread, hwrite⟩ := h
    refine ⟨rfl, ?_, ?_, ?_⟩
    · show (st.inbuf.data.drop st.n1).length + st.n1 = st.inbuf.data.length
      rw [List.length_drop]
      have : st.wlen ≤ st.inbuf.data.length := hread
      omega
    · show st.outbuf.data ++
          ((stretchMash pb st).take st.n2).take st.outbuf.getWriteSpace =
        st.outbuf.data ++ (stretchMash pb st).take st.n2
      rw [List.take_take, Nat.min_eq_right hwrite]
    · show mashShift st.wlen st.n2 (stretchMash pb st) =
        (stretchMash pb st).drop st.n2 ++ List.replicate st.n2 (0 : ℚ)
      exact mashShift_eq _ _ _ (stretchMash_length pb st hm hk) hn2

/-- A concrete guarded stretcher state for evaluation: ratio 2, n1 = 1,
n2 = 2, W = 4, a full input ring of four samples, an empty output ring of
size 8, and a zeroed mashbuf. -/
def sampleState : IntegerTimeStretcher :=
  { ratio := 2
    n1 := 1
    n2 := 2
    wlen := 4
    inbuf := { size := 4, data := [1, 2, 3, 4] }
    outbuf := { size := 8, data := [] }
    mashbuf := [0, 0, 0, 0] }

/-- Witness for C3 at `sampleState` with the identity spectral kernel. -/
theorem stretch_iteration_effects_witness :
    (sampleState.mashbuf.length = sampleState.wlen ∧
      ((fun l : List ℚ => l)
          (sampleState.inbuf.peek sampleState.wlen)).length = sampleState.wlen ∧
      sampleState.n2 ≤ sampleState.wlen ∧ sampleState.n1 ≤ sampleState.wlen) ∧
    ((¬ stretchGuard sampleState →
      innerLoop (fun l => l) 0 sampleState = sampleState) ∧
    (stretchGuard sampleState →
      innerLoop (fun l => l) (0 + 1) sampleState =
        innerLoop (fun l => l) 0 (stretchIter (fun l => l) sampleState)) ∧
    (stretchGuard sampleState →
      (stretchIter (fun l => l) sampleState).inbuf.data =
        sampleState.inbuf.data.drop sampleState.n1 ∧
      (stretchIter (fun l => l) sampleState).inbuf.getReadSpace +
          sampleState.n1 = sampleState.inbuf.getReadSpace ∧
      (stretchIter (fun l => l) sampleState).outbuf.data =
        sampleState.outbuf.data ++
          (stretchMash (fun l => l) sampleState).take sampleState.n2 ∧
      (stretchIter (fun l => l) sampleState).mashbuf =
        (stretchMash (fun l => l) sampleState).drop sampleState.n2 ++
          List.replicate sampleState.n2 (0 : ℚ))) :=
  ⟨⟨by decide, by decide, by decide, by decide⟩,
    stretch_iteration_effects (fun l => l) sampleState 0
      (by decide) (by decide) (by decide) (by decide)⟩

/-- C2: for a stretcher constructed with ratio R >= 1 and positive input
increment, after any sequence of prior calls, a call process(input, output,
samples) with samples within the constructor's max input block size writes
exactly samples * R frames: when the output ring holds fewer ready frames,
the head of the output is zero-filled and the entire ready content follows;
otherwise the first samples * R ready frames are emitted. -/
theorem process_emits_ratio_frames
    (pb : List ℚ → List ℚ) (R B n1 ws : ℕ) (hR : 1 ≤ R) (hn1 : 0 < n1)
    (prev : List (List ℚ)) (st : IntegerTimeStretcher)
    (hst : st = prev.foldl (fun s i => (process pb s i).2)
      (IntegerTimeStretcher.construct R B n1 ws))
    (input : List ℚ) (hB : input.length ≤ B) :
    ((process pb st input).1).length = input.length * R ∧
    ((outerLoop pb st input).outbuf.getReadSpace < input.length * R →
      (process pb st input).1 =
        List.replicate
            (input.length * R - (outerLoop pb st input).outbuf.getReadSpace)
            0 ++
          (outerLoop pb st input).outbuf.data) ∧
    (input.length * R ≤ (outerLoop pb st input).outbuf.getReadSpace →
      (process pb st input).1 =
        (outerLoop pb st input).outbuf.data.take (input.length * R)) := by
  have hr : st.ratio = R := by
    rw [hst, foldl_process_ratio]
    rfl
  have hp1 : (process pb st input).1 =
      (drain (outerLoop pb st input) (input.length * st.ratio)).1 := rfl
  rw [hp1, hr]
  exact ⟨drain_fst_length _ _,
    fun h => drain_fst_insufficient _ _ h,
    fun h => drain_fst_sufficient _ _ h⟩

/-- Witness for C2: ratio 2, max block 4, input increment 1, window size 4,
no prior calls, and the three-sample input block [1, 2, 3]. -/
theorem process_emits_ratio_frames_witness :
    ((1 : ℕ) ≤ 2 ∧ (0 : ℕ) < 1 ∧
      IntegerTimeStretcher.construct 2 4 1 4 =
        List.foldl (fun s i => (process (fun l => l) s i).2)
          (IntegerTimeStretcher.construct 2 4 1 4) [] ∧
      ([1, 2, 3] : List ℚ).length ≤ 4) ∧
    (((process (fun l => l) (IntegerTimeStretcher.construct 2 4 1 4)
        [1, 2, 3]).1).length = ([1, 2, 3] : List ℚ).length * 2 ∧
    ((outerLoop (fun l => l) (IntegerTimeStretcher.construct 2 4 1 4)
        [1, 2, 3]).outbuf.getReadSpace < ([1, 2, 3] : List ℚ).length * 2 →
      (process (fun l => l) (IntegerTimeStretcher.construct 2 4 1 4)
          [1, 2, 3]).1 =
        List.replicate
            (([1, 2, 3] : List ℚ).length * 2 -
              (outerLoop (fun l => l) (IntegerTimeStretcher.construct 2 4 1 4)
                [1, 2, 3]).outbuf.getReadSpace)
            0 ++
          (outerLoop (fun l => l) (IntegerTimeStretcher.construct 2 4 1 4)
            [1, 2, 3]).outbuf.data) ∧
    (([1, 2, 3] : List ℚ).length * 2 ≤
        (outerLoop (fun l => l) (IntegerTimeStretcher.construct 2 4 1 4)
          [1, 2, 3]).outbuf.getReadSpace →
      (process (fun l => l) (IntegerTimeStretcher.construct 2 4 1 4)
          [1, 2, 3]).1 =
        (outerLoop (fun l => l) (IntegerTimeStretcher.construct 2 4 1 4)
          [1, 2, 3]).outbuf.data.take (([1, 2, 3] : List ℚ).length * 2))) :=
  ⟨⟨by decide, by decide, rfl, by decide⟩,
    process_emits_ratio_frames (fun l => l) 2 4 1 4 (by decide) (by decide)
      [] (IntegerTimeStretcher.construct 2 4 1 4) rfl [1, 2, 3] (by decide)⟩

/-! Helper lemmas for the ordered note-off set. -/

theorem noteOffInsert_mem (s : List NoteOff) (n x : NoteOff)
    (hx : x ∈ noteOffInsert s n) : x = n ∨ x ∈ s := by
  induction s with
  | nil =>
    simp [noteOffInsert] at hx
    exact Or.inl hx
  | cons y ys ih =>
    rw [noteOffInsert] at hx
    by_cases h1 : NoteOff.comparator n y
    · rw [if_pos h1] at hx
      rcases List.mem_cons.mp hx with rfl | hx2
      · exact Or.inl rfl
      · rcases List.mem_cons.mp hx2 with rfl | hx3
        · exact Or.inr (List.mem_cons_self _ _)
        · exact Or.inr (List.mem_cons_of_mem _ hx3)
    · rw [if_neg h1] at hx
      by_cases h2 : NoteOff.comparator y n
      · rw [if_pos h2] at hx
        rcases List.mem_cons.mp hx with rfl | hx2
        · exact Or.inr (List.mem_cons_self _ _)
        · rcases ih hx2 with h' | h'
          · exact Or.inl h'
          · exact Or.inr (List.mem_cons_of_mem _ h')
      · rw [if_neg h2] at hx
        exact Or.inr hx

theorem noteOffInsert_pairwise (s : List NoteOff) (n : NoteOff)
    (hs : List.Pairwise (fun a b => a.frame < b.frame) s) :
    List.Pairwise (fun a b => a.frame < b.frame) (noteOffInsert s n) := by
  induction s with
  | nil => simp [noteOffInsert]
  | cons x xs ih =>
    rw [List.pairwise_cons] at hs
    obtain ⟨hx, hxs⟩ := hs
    rw [noteOffInsert]
    by_cases h1 : NoteOff.comparator n x
    · rw [if_pos h1]
      have hnx : n.frame < x.frame := by simpa [NoteOff.comparator] using h1
      refine List.pairwise_cons.mpr ⟨?_, List.pairwise_cons.mpr ⟨hx, hxs⟩⟩
      intro y hy
      rcases List.mem_cons.mp hy with rfl | hy
      · exact hnx
      · exact lt_trans hnx (hx y hy)
    · rw [if_neg h1]
      by_cases h2 : NoteOff.comparator x n
      · rw [if_pos h2]
        have hxn : x.frame < n.frame := by simpa [NoteOff.comparator] using h2
        refine List.pairwise_cons.mpr ⟨?_, ih hxs⟩
        intro y hy
        rcases noteOffInsert_mem xs n y hy with rfl | hy
        · exact hxn
        · exact hx y hy
      · rw [if_neg h2]
        exact List.pairwise_cons.mpr ⟨hx, hxs⟩

theorem noteOffInsert_equiv_mem (s : List NoteOff) (n : NoteOff)
    (hs : List.Pairwise (fun a b => a.frame < b.frame) s)
    (hmem : ∃ m ∈ s, m.frame = n.frame) : noteOffInsert s n = s := by
  induction s with
  | nil =>
    obtain ⟨m, hm, _⟩ := hmem
    exact absurd hm (List.not_mem_nil m)
  | cons x xs ih =>
    rw [List.pairwise_cons] at hs
    obtain ⟨hx, hxs⟩ := hs
    obtain ⟨m, hm, hfr⟩ := hmem
    rw [noteOffInsert]
    by_cases h1 : NoteOff.comparator n x
    · exfalso
      have hnx : n.frame < x.frame := by simpa [NoteOff.comparator] using h1
      rcases List.mem_cons.mp hm with rfl | hm
      · omega
      · have := hx m hm
        omega
    · rw [if_neg h1]
      by_cases h2 : NoteOff.comparator x n
      · rw [if_pos h2]
        have hxn : x.frame < n.frame := by simpa [NoteOff.comparator] using h2
        rcases List.mem_cons.mp hm with rfl | hm
        · omega
        · rw [ih hxs ⟨m, hm, hfr⟩]
      · rw [if_neg h2]

theorem foldl_noteOffInsert_pairwise (ops : List NoteOff) (s : List NoteOff)
    (hs : List.Pairwise (fun a b => a.frame < b.frame) s) :
    List.Pairwise (fun a b => a.frame < b.frame)
      (ops.foldl noteOffInsert s) := by
  induction ops generalizing s with
  | nil => exact hs
  | cons a l ih => exact ih _ (noteOffInsert_pairwise s a hs)

/-- C6: the Comparator places a before b exactly when a.frame < b.frame,
and consequently every note-off set reachable by insertions is ordered:
iterating it yields note-offs in non-decreasing (in fact strictly
increasing) frame order. -/
theorem noteOff_comparator_orders_by_frame (a b : NoteOff)
    (ops : List NoteOff) :
    (NoteOff.comparator a b = true ↔ a.frame < b.frame) ∧
    List.Pairwise (fun x y => x.frame ≤ y.frame)
      (ops.foldl noteOffInsert []) := by
  constructor
  · simp [NoteOff.comparator]
  · exact (foldl_noteOffInsert_pairwise ops [] (by simp)).imp
      (fun h => Nat.le_of_lt h)

/-- C9: because the Comparator compares only the frame field, a NoteOffSet
identifies note-offs with equal frame: every reachable set holds at most
one note-off per frame value, and inserting a note-off whose frame equals
that of an element already present (whatever its pitch) leaves the set
unchanged. -/
theorem noteOffSet_identifies_equal_frames (ops : List NoteOff)
    (n m : NoteOff) (hfr : m.frame = n.frame)
    (hmem : m ∈ ops.foldl noteOffInsert []) :
    noteOffInsert (ops.foldl noteOffInsert []) n =
      ops.foldl noteOffInsert [] ∧
    List.Pairwise (fun x y => x.frame ≠ y.frame)
      (ops.foldl noteOffInsert []) := by
  have hp := foldl_noteOffInsert_pairwise ops [] (by simp)
  exact ⟨noteOffInsert_equiv_mem _ _ hp ⟨m, hmem, hfr⟩,
    hp.imp (fun h => Nat.ne_of_lt h)⟩

/-- Witness for C9: the set built from the single note-off (pitch 60,
frame 5); inserting (pitch 61, frame 5) leaves it unchanged. -/
theorem noteOffSet_identifies_equal_frames_witness :
    ((⟨60, 5⟩ : NoteOff).frame = (⟨61, 5⟩ : NoteOff).frame ∧
      (⟨60, 5⟩ : NoteOff) ∈
        ([⟨60, 5⟩] : List NoteOff).foldl noteOffInsert []) ∧
    (noteOffInsert (([⟨60, 5⟩] : List NoteOff).foldl noteOffInsert [])
        ⟨61, 5⟩ = ([⟨60, 5⟩] : List NoteOff).foldl noteOffInsert [] ∧
      List.Pairwise (fun x y => x.frame ≠ y.frame)
        (([⟨60, 5⟩] : List NoteOff).foldl noteOffInsert [])) :=
  ⟨⟨rfl, by decide⟩,
    noteOffSet_identifies_equal_frames [⟨60, 5⟩] ⟨61, 5⟩ ⟨60, 5⟩ rfl
      (by decide)⟩

/-! Helper lemmas for termination of the processing loops. -/

@[simp]
theorem stretchIter_readSpace (pb : List ℚ → List ℚ)
    (st : IntegerTimeStretcher) :
    (stretchIter pb st).inbuf.getReadSpace =
      st.inbuf.getReadSpace - st.n1 := by
  simp [stretchIter, RingBuffer.skip, RingBuffer.getReadSpace]

theorem innerLoop_stable (pb : List ℚ → List ℚ) (k : ℕ) :
    ∀ (st : IntegerTimeStretcher) (f g : ℕ),
      st.inbuf.getReadSpace = k → 0 < st.n1 → 0 < st.wlen →
      k < f → k < g → innerLoop pb f st = innerLoop pb g st := by
  induction k using Nat.strong_induction_on with
  | _ k ih =>
    intro st f g hk hn1 hw hf hg
    obtain ⟨f', rfl⟩ : ∃ f', f = f' + 1 := ⟨f - 1, by omega⟩
    obtain ⟨g', rfl⟩ : ∃ g', g = g' + 1 := ⟨g - 1, by omega⟩
    by_cases hguard : stretchGuard st
    · rw [innerLoop, innerLoop, if_pos hguard, if_pos hguard]
      have hwlen : st.wlen ≤ st.inbuf.getReadSpace := hguard.1
      have hlt : (stretchIter pb st).inbuf.getReadSpace < k := by
        rw [stretchIter_readSpace]
        omega
      have hn1' : 0 < (stretchIter pb st).n1 := by simpa using hn1
      have hw' : 0 < (stretchIter pb st).wlen := by simpa using hw
      exact ih _ hlt _ f' g' rfl hn1' hw' (by omega) (by omega)
    · rw [innerLoop, innerLoop, if_neg hguard, if_neg hguard]

/-- C10: `process` terminates for every input length.  The inner loop
stabilises at any fuel above the input ring's read space (so it cannot
spin), and each outer-loop step either consumes a non-empty chunk of the
remaining input, strictly shrinking it, or, when the input ring has no
write space left, breaks out and discards the remaining unconsumed frames
without buffering them (the result does not depend on them). -/
theorem process_outer_loop_terminates
    (pb : List ℚ → List ℚ) (st : IntegerTimeStretcher) (rest : List ℚ)
    (f : ℕ) (hn1 : 0 < st.n1) (hw : 0 < st.wlen)
    (hf : st.inbuf.getReadSpace < f) :
    innerLoop pb f st = innerLoop pb (st.inbuf.getReadSpace + 1) st ∧
    (rest ≠ [] → min st.inbuf.getWriteSpace rest.length = 0 →
      outerLoop pb st rest = st) ∧
    (rest ≠ [] → 0 < min st.inbuf.getWriteSpace rest.length →
      outerLoop pb st rest =
        outerLoop pb
          (runInner pb { st with inbuf := st.inbuf.write (rest.take (min st.inbuf.getWriteSpace rest.length)) })
          (rest.drop (min st.inbuf.getWriteSpace rest.length)) ∧
      (rest.drop (min st.inbuf.getWriteSpace rest.length)).length <
        rest.length) := by
  refine ⟨innerLoop_stable pb _ st f _ rfl hn1 hw hf (by omega), ?_, ?_⟩
  · intro hne hzero
    rw [outerLoop, if_neg hne]
    dsimp only
    rw [dif_pos hzero]
  · intro hne hpos
    constructor
    · rw [outerLoop, if_neg hne]
      dsimp only
      rw [dif_neg (Nat.pos_iff_ne_zero.mp hpos)]
    · have hlen : rest.length ≠ 0 := fun h0 =>
        hne (List.length_eq_zero.mp h0)
      rw [List.length_drop]
      omega

/-- Witness for C10 at `sampleState` (read space 4, no write space) with
remaining input [9] and fuel 5. -/
theorem process_outer_loop_terminates_witness :
    (0 < sampleState.n1 ∧ 0 < sampleState.wlen ∧
      sampleState.inbuf.getReadSpace < 5) ∧
    (innerLoop (fun l => l) 5 sampleState =
        innerLoop (fun l => l) (sampleState.inbuf.getReadSpace + 1)
          sampleState ∧
      (([9] : List ℚ) ≠ [] →
        min sampleState.inbuf.getWriteSpace ([9] : List ℚ).length = 0 →
        outerLoop (fun l => l) sampleState [9] = sampleState) ∧
      (([9] : List ℚ) ≠ [] →
        0 < min sampleState.inbuf.getWriteSpace ([9] : List ℚ).length →
        outerLoop (fun l => l) sampleState [9] =
          outerLoop (fun l => l)
            (runInner (fun l => l) { sampleState with inbuf := sampleState.inbuf.write (([9] : List ℚ).take (min sampleState.inbuf.getWriteSpace ([9] : List ℚ).length)) })
            (([9] : List ℚ).drop
              (min sampleState.inbuf.getWriteSpace ([9] : List ℚ).length)) ∧
        (([9] : List ℚ).drop
            (min sampleState.inbuf.getWriteSpace
              ([9] : List ℚ).length)).length <
          ([9] : List ℚ).length)) :=
  ⟨⟨by decide, by decide, by decide⟩,
    process_outer_loop_terminates (fun l => l) sampleState [9] 5
      (by decide) (by decide) (by decide)⟩

end Svapp
